import Mathlib

/-!
Verification of the `SimpleVector` dynamic-array container from
`src/simple-vector/simple_vector.h`, as a shallow embedding.

Modelling conventions:
* A container state is a `SimpleVector α`: the backing buffer `items`
  (one entry per allocated slot), the logical `size` and the `capacity`.
* Iterators/positions are modelled as offsets (`Nat`) from `begin()`.
* `Type()` (value initialisation in C++) is modelled by `default`.
* `array_ptr.h` is not part of the sources; its behaviour (exclusive
  buffer ownership, move transfers the buffer and empties the source)
  is modelled from the spec where it matters and noted at each use.
-/

namespace SimpleVectorSpec

structure SimpleVector (α : Type) where
  items : List α
  size : Nat
  capacity : Nat
deriving Repr, DecidableEq

namespace SimpleVector

variable {α : Type} [Inhabited α]

/-- Well-formedness invariant of a container state: the logical size never
exceeds the capacity, and the buffer has exactly `capacity` slots. -/
def WF (v : SimpleVector α) : Prop :=
  v.size ≤ v.capacity ∧ v.items.length = v.capacity

instance (v : SimpleVector α) [DecidableEq α] : Decidable (WF v) := by
  unfold WF; infer_instance

/-- The live elements of the container: slots `[0, size)` of the buffer. -/
def liveElems (v : SimpleVector α) : List α :=
  v.items.take v.size

/-- `SimpleVector() noexcept = default;` — size 0, capacity 0, no buffer. -/
def emptyVec : SimpleVector α := ⟨[], 0, 0⟩

/-- `SimpleVector(size_t size)` — buffer of `size` slots filled with
`Type()`, size = capacity = `size`. -/
def mkSized (n : Nat) : SimpleVector α :=
  ⟨List.replicate n default, n, n⟩

/-- `SimpleVector(std::initializer_list<Type> init)` — buffer holds the
literal sequence, size = capacity = its length. -/
def fromList (xs : List α) : SimpleVector α :=
  ⟨xs, xs.length, xs.length⟩

/-- `ReCapacity(size_t capacity)` — allocates a fresh buffer of `capacity`
slots, moves the `size` live elements to its front, swaps it in and sets
`capacity_`.  Fresh slots are modelled as default values (modelled from the
spec: slots beyond size are allocated but unspecified; `array_ptr.h` is not
in the sources). -/
def ReCapacity (v : SimpleVector α) (c : Nat) : SimpleVector α :=
  ⟨v.items.take v.size ++ List.replicate (c - v.size) default, v.size, c⟩

/-- `operator[]` — unchecked access to slot `index`. -/
def get (v : SimpleVector α) (index : Nat) : α :=
  v.items.getD index default

/-- `At(size_t index)` — throws `std::out_of_range` when `index >= size_`,
otherwise returns `items_[index]`.  (`At` performs no writes, so the model
returns only the value; the container is unchanged by construction.) -/
def At (v : SimpleVector α) (index : Nat) : Except String α :=
  if index ≥ v.size then .error "index >= size"
  else .ok (v.get index)

/-- `Clear()` — zeroes the size, buffer and capacity untouched. -/
def Clear (v : SimpleVector α) : SimpleVector α :=
  { v with size := 0 }

/-- `Resize(size_t new_size)`, line for line: when growing within capacity a
fresh buffer of exactly `new_size` slots is allocated, the live elements are
moved over, the tail `[size, new_size)` is default-filled, and `capacity_`
is set to `new_size`; when growing beyond capacity, `ReCapacity(new_size*2)`;
the final `size_ = new_size` covers every path. -/
def Resize (v : SimpleVector α) (newSize : Nat) : SimpleVector α :=
  if v.size < newSize then
    if newSize ≤ v.capacity then
      ⟨v.items.take v.size ++ List.replicate (newSize - v.size) default,
        newSize, newSize⟩
    else { v.ReCapacity (newSize * 2) with size := newSize }
  else { v with size := newSize }

/-- The growth step used by `PushBack`/`Insert`:
`capacity_ == 0 ? 1 : capacity_ * 2`. -/
def growCap (c : Nat) : Nat :=
  if c = 0 then 1 else c * 2

/-- `PushBack` (both the copy and the move overload have the same effect on
the state): grow when full, write the item at slot `size_`, increment
`size_`. -/
def PushBack (v : SimpleVector α) (item : α) : SimpleVector α :=
  let v' := if v.size = v.capacity then v.ReCapacity (growCap v.capacity) else v
  { v' with items := v'.items.set v'.size item, size := v'.size + 1 }

/-- `std::copy_backward(begin() + p, end(), end() + 1)` on a buffer whose
logical size is `s`: slots `[p+1, s+1)` receive the old slots `[p, s)`,
everything else is unchanged. -/
def copyBackward (items : List α) (p s : Nat) : List α :=
  items.take (p + 1) ++ (items.drop p).take (s - p) ++ items.drop (s + 1)

/-- `Insert(ConstIterator pos, value)` (copy and move overloads have the
same effect): the offset `begin_to_pos = p` is taken before any growth;
grow when full; shift `[p, size)` one slot right by `copy_backward`; write
the value at offset `p`; increment size; return `begin() + p`, i.e. the
offset `p`. -/
def Insert (v : SimpleVector α) (p : Nat) (value : α) : SimpleVector α × Nat :=
  let v' := if v.size = v.capacity then v.ReCapacity (growCap v.capacity) else v
  (⟨(copyBackward v'.items p v'.size).set p value, v'.size + 1, v'.capacity⟩, p)

/-- `PopBack()` — decrement the size unless the container is empty. -/
def PopBack (v : SimpleVector α) : SimpleVector α :=
  if v.size = 0 then v else { v with size := v.size - 1 }

/-- `Erase(ConstIterator pos)` with `begin_to_pos = p`: when
`begin() <= pos < end()` (i.e. `p < size`), `std::move(it+1, end(), it)`
shifts slots `[p+1, size)` one slot left (slot `size-1` keeps its old,
now dead, value) and the size decrements; otherwise nothing changes.
Either way the returned iterator is `begin() + begin_to_pos`, offset `p`. -/
def Erase (v : SimpleVector α) (p : Nat) : SimpleVector α × Nat :=
  if p < v.size then
    (⟨v.items.take p ++ (v.items.drop (p + 1)).take (v.size - (p + 1))
        ++ v.items.drop (v.size - 1),
      v.size - 1, v.capacity⟩, p)
  else (v, p)

/-- `Reserve(size_t new_capacity)` — `ReCapacity(new_capacity)` exactly when
`new_capacity > capacity_`. -/
def Reserve (v : SimpleVector α) (newCapacity : Nat) : SimpleVector α :=
  if newCapacity > v.capacity then v.ReCapacity newCapacity else v

/-- `SimpleVector(const SimpleVector& other)` — builds
`tmp(other.GetSize())` (buffer of `other.size` default slots), copies
`other`'s live elements over its front with `std::copy`, and swaps with
`tmp`: the result has capacity `other.GetSize()`. -/
def copyFrom (other : SimpleVector α) : SimpleVector α :=
  let tmp : SimpleVector α := mkSized other.size
  { tmp with items := liveElems other ++ tmp.items.drop other.size }

/-- `SimpleVector(SimpleVector&& other)` — returns
(constructed instance, source afterwards).  `items_` is move-constructed
from `other.items_` (modelled from the spec: `array_ptr.h` is not in the
sources; moving the buffer transfers ownership and empties the source) and
`size_`/`capacity_` are `std::exchange`d to 0. -/
def moveCtor (other : SimpleVector α) : SimpleVector α × SimpleVector α :=
  (⟨other.items, other.size, other.capacity⟩, ⟨[], 0, 0⟩)

/-- `operator=(SimpleVector&&) = default;` — member-wise move assignment,
returning (assigned-to instance, source afterwards).  `rhs.items_` is
move-assigned away (modelled from the spec: `array_ptr.h` is not in the
sources; the buffer transfers and the source buffer is emptied), but
`size_` and `capacity_` are `size_t`, so moving them merely copies: the
source keeps its `size_` and `capacity_` values. -/
def moveAssign (_lhs rhs : SimpleVector α) : SimpleVector α × SimpleVector α :=
  (⟨rhs.items, rhs.size, rhs.capacity⟩, ⟨[], rhs.size, rhs.capacity⟩)

/-- `operator=(const SimpleVector& rhs)` — the guard `this != &rhs` is
modelled by the flag `same`: self-assignment returns `*this` unchanged,
otherwise copy-construct a temporary from `rhs` and swap it in. -/
def copyAssign (lhs rhs : SimpleVector α) (same : Bool) : SimpleVector α :=
  if same then lhs else copyFrom rhs

/-- `operator==` — `lhs.GetSize() == rhs.GetSize() ? std::equal(...) : false`;
with equal sizes `std::equal` over the live ranges is list equality. -/
def eqOp [DecidableEq α] (a b : SimpleVector α) : Bool :=
  if a.size = b.size then decide (liveElems a = liveElems b) else false

/-- `operator!=` — `!(lhs == rhs)`. -/
def neOp [DecidableEq α] (a b : SimpleVector α) : Bool :=
  !(eqOp a b)

/-- `std::lexicographical_compare(f1, l1, f2, l2)` with `operator<` as the
comparison. -/
def lexLt [LinearOrder α] : List α → List α → Bool
  | _, [] => false
  | [], _ :: _ => true
  | x :: xs, y :: ys =>
    if x < y then true else if y < x then false else lexLt xs ys

/-- `operator<` — lexicographic comparison of the two live ranges. -/
def ltOp [LinearOrder α] (a b : SimpleVector α) : Bool :=
  lexLt (liveElems a) (liveElems b)

/-- `operator<=` — `!(rhs < lhs)`. -/
def leOp [LinearOrder α] (a b : SimpleVector α) : Bool :=
  !(ltOp b a)

/-- `operator>` — `rhs < lhs`. -/
def gtOp [LinearOrder α] (a b : SimpleVector α) : Bool :=
  ltOp b a

/-- `operator>=` — `!(lhs < rhs)`. -/
def geOp [LinearOrder α] (a b : SimpleVector α) : Bool :=
  !(ltOp a b)

/-- `xs.foldl PushBack v` — the effect of pushing the elements of `xs`
onto `v`, one `PushBack` call per element, in order. -/
def pushMany (v : SimpleVector α) (xs : List α) : SimpleVector α :=
  xs.foldl PushBack v

/-- The capacity reached after `k` pushes onto an initially empty
container under the doubling rule the spec describes
(0 → 1 → 2 → 4 → …): before the `(n+1)`-st push the size is `n`, and the
capacity grows by `growCap` exactly when the container is full. -/
def capAfter : Nat → Nat
  | 0 => 0
  | n + 1 => if n = capAfter n then growCap (capAfter n) else capAfter n

/-! ### Helper lemmas about list surgery and the individual operations -/

omit [Inhabited α] in
lemma take_set_succ (l : List α) (n : Nat) (x : α) (h : n < l.length) :
    (l.set n x).take (n + 1) = l.take n ++ [x] := by
  rw [List.set_eq_take_append_cons_drop, if_pos h]
  rw [List.take_append_eq_append_take]
  have hA : (l.take n).length = n := by simp; omega
  rw [hA, List.take_of_length_le (by simp)]
  rw [show n + 1 - n = 1 from by omega]
  simp

omit [Inhabited α] in
lemma take_insert_shift (l : List α) (p s : Nat) (x : α) (hp : p ≤ s)
    (hs : s < l.length) :
    ((copyBackward l p s).set p x).take (s + 1)
      = (l.take s).take p ++ x :: (l.take s).drop p := by
  unfold copyBackward
  have hA : (l.take (p + 1)).length = p + 1 := by simp; omega
  have hB : ((l.drop p).take (s - p)).length = s - p := by simp; omega
  rw [List.append_assoc]
  rw [List.set_append_left _ _ (by omega)]
  rw [List.set_eq_take_append_cons_drop, if_pos (by omega)]
  rw [List.take_take, Nat.min_eq_left (by omega)]
  rw [List.drop_take]
  rw [show p + 1 - (p + 1) = 0 from by omega]
  simp only [List.take_zero, List.take_nil]
  rw [List.take_append_eq_append_take]
  rw [List.take_append_eq_append_take]
  simp only [List.length_append, List.length_take, List.length_cons,
    List.length_nil, List.length_drop]
  have hm : p ⊓ l.length = p := Nat.min_eq_left (by omega)
  rw [hm]
  rw [List.take_take, Nat.min_eq_right (by omega)]
  rw [List.take_of_length_le (l := [x]) (by simp; omega)]
  rw [show s + 1 - (p + (0 + 1)) = s - p from by omega]
  rw [List.take_append_eq_append_take, hB, Nat.sub_self, List.take_zero,
    List.append_nil]
  rw [List.take_of_length_le (le_of_eq hB)]
  rw [List.take_take, Nat.min_eq_left hp]
  rw [List.drop_take]
  simp

omit [Inhabited α] in
lemma take_erase_shift (l : List α) (p s : Nat) (hp : p < s) (hs : s ≤ l.length) :
    (l.take p ++ (l.drop (p + 1)).take (s - (p + 1)) ++ l.drop (s - 1)).take (s - 1)
      = (l.take s).take p ++ (l.take s).drop (p + 1) := by
  have hA : (l.take p).length = p := by simp; omega
  have hB : ((l.drop (p + 1)).take (s - (p + 1))).length = s - (p + 1) := by
    simp; omega
  rw [List.append_assoc]
  rw [List.take_append_eq_append_take]
  rw [List.take_append_eq_append_take]
  rw [hA, hB]
  rw [List.take_take, Nat.min_eq_right (by omega)]
  rw [List.take_of_length_le (le_of_eq (hB.trans (by omega)))]
  rw [show s - 1 - p - (s - (p + 1)) = 0 from by omega, List.take_zero,
    List.append_nil]
  rw [List.take_take, Nat.min_eq_left (by omega)]
  rw [List.drop_take]

lemma growCap_gt (c : Nat) : c < growCap c := by
  unfold growCap
  split <;> omega

lemma ReCapacity_length {v : SimpleVector α} {c : Nat}
    (h2 : v.items.length = v.capacity) (h1 : v.size ≤ v.capacity)
    (hc : v.size ≤ c) : (v.ReCapacity c).items.length = c := by
  simp [ReCapacity]
  omega

lemma WF_ReCapacity {v : SimpleVector α} {c : Nat} (h : WF v) (hc : v.size ≤ c) :
    WF (v.ReCapacity c) := by
  obtain ⟨h1, h2⟩ := h
  exact ⟨hc, ReCapacity_length h2 h1 hc⟩

lemma liveElems_ReCapacity {v : SimpleVector α} {c : Nat} (h : WF v)
    (_hc : v.size ≤ c) : liveElems (v.ReCapacity c) = liveElems v := by
  obtain ⟨h1, h2⟩ := h
  unfold liveElems ReCapacity
  simp only
  rw [List.take_append_of_le_length (by simp; omega), List.take_take,
    Nat.min_self]

lemma PushBack_def_full (v : SimpleVector α) (x : α) (hc : v.size = v.capacity) :
    v.PushBack x = ⟨(v.ReCapacity (growCap v.capacity)).items.set v.size x,
      v.size + 1, growCap v.capacity⟩ := by
  simp only [PushBack, if_pos hc]
  rfl

lemma PushBack_def_slack (v : SimpleVector α) (x : α)
    (hc : ¬ v.size = v.capacity) :
    v.PushBack x = ⟨v.items.set v.size x, v.size + 1, v.capacity⟩ := by
  simp only [PushBack, if_neg hc]

lemma PushBack_spec (v : SimpleVector α) (x : α) (h : WF v) :
    (v.PushBack x).size = v.size + 1 ∧
    (v.PushBack x).capacity
      = (if v.size = v.capacity then growCap v.capacity else v.capacity) ∧
    liveElems (v.PushBack x) = liveElems v ++ [x] ∧
    WF (v.PushBack x) := by
  obtain ⟨h1, h2⟩ := h
  by_cases hc : v.size = v.capacity
  · have hlt : v.size < growCap v.capacity := hc ▸ growCap_gt v.capacity
    have hlen : (v.ReCapacity (growCap v.capacity)).items.length
        = growCap v.capacity := ReCapacity_length h2 h1 (le_of_lt hlt)
    have hlive : liveElems (v.ReCapacity (growCap v.capacity)) = liveElems v :=
      liveElems_ReCapacity ⟨h1, h2⟩ (le_of_lt hlt)
    rw [PushBack_def_full v x hc, if_pos hc]
    refine ⟨rfl, rfl, ?_, ?_, ?_⟩
    · show ((v.ReCapacity (growCap v.capacity)).items.set v.size x).take (v.size + 1)
        = liveElems v ++ [x]
      rw [take_set_succ _ _ _ (by rw [hlen]; omega)]
      have hpre : (v.ReCapacity (growCap v.capacity)).items.take v.size
          = liveElems (v.ReCapacity (growCap v.capacity)) := rfl
      rw [hpre, hlive]
    · show v.size + 1 ≤ growCap v.capacity
      omega
    · show ((v.ReCapacity (growCap v.capacity)).items.set v.size x).length
        = growCap v.capacity
      rw [List.length_set, hlen]
  · have hlt : v.size < v.capacity := lt_of_le_of_ne h1 hc
    rw [PushBack_def_slack v x hc, if_neg hc]
    refine ⟨rfl, rfl, ?_, ?_, ?_⟩
    · show (v.items.set v.size x).take (v.size + 1) = liveElems v ++ [x]
      rw [take_set_succ _ _ _ (by omega)]
      rfl
    · show v.size + 1 ≤ v.capacity
      omega
    · show (v.items.set v.size x).length = v.capacity
      rw [List.length_set, h2]

omit [Inhabited α] in
lemma copyBackward_length (l : List α) (p s : Nat) (hp : p ≤ s)
    (hs : s < l.length) : (copyBackward l p s).length = l.length := by
  simp [copyBackward]
  omega

lemma Insert_def_full (v : SimpleVector α) (p : Nat) (x : α)
    (hc : v.size = v.capacity) :
    v.Insert p x
      = (⟨(copyBackward (v.ReCapacity (growCap v.capacity)).items p v.size).set p x,
          v.size + 1, growCap v.capacity⟩, p) := by
  simp only [Insert, if_pos hc]
  rfl

lemma Insert_def_slack (v : SimpleVector α) (p : Nat) (x : α)
    (hc : ¬ v.size = v.capacity) :
    v.Insert p x
      = (⟨(copyBackward v.items p v.size).set p x, v.size + 1, v.capacity⟩, p) := by
  simp only [Insert, if_neg hc]

lemma Insert_spec (v : SimpleVector α) (p : Nat) (x : α) (h : WF v)
    (hp : p ≤ v.size) :
    (v.Insert p x).2 = p ∧
    (v.Insert p x).1.size = v.size + 1 ∧
    (v.Insert p x).1.capacity
      = (if v.size = v.capacity then growCap v.capacity else v.capacity) ∧
    liveElems (v.Insert p x).1
      = (liveElems v).take p ++ x :: (liveElems v).drop p ∧
    WF (v.Insert p x).1 := by
  obtain ⟨h1, h2⟩ := h
  by_cases hc : v.size = v.capacity
  · have hlt : v.size < growCap v.capacity := hc ▸ growCap_gt v.capacity
    have hlen : (v.ReCapacity (growCap v.capacity)).items.length
        = growCap v.capacity := ReCapacity_length h2 h1 (le_of_lt hlt)
    have hlive : (v.ReCapacity (growCap v.capacity)).items.take v.size
        = liveElems v := liveElems_ReCapacity ⟨h1, h2⟩ (le_of_lt hlt)
    have hsw : v.size < (v.ReCapacity (growCap v.capacity)).items.length := by
      rw [hlen]; omega
    rw [Insert_def_full v p x hc, if_pos hc]
    refine ⟨rfl, rfl, rfl, ?_, ?_, ?_⟩
    · show ((copyBackward (v.ReCapacity (growCap v.capacity)).items p v.size).set p x).take (v.size + 1)
        = (liveElems v).take p ++ x :: (liveElems v).drop p
      rw [take_insert_shift _ _ _ _ hp hsw, hlive]
    · show v.size + 1 ≤ growCap v.capacity
      omega
    · show ((copyBackward (v.ReCapacity (growCap v.capacity)).items p v.size).set p x).length
        = growCap v.capacity
      rw [List.length_set, copyBackward_length _ _ _ hp hsw, hlen]
  · have hlt : v.size < v.capacity := lt_of_le_of_ne h1 hc
    have hsw : v.size < v.items.length := by omega
    rw [Insert_def_slack v p x hc, if_neg hc]
    refine ⟨rfl, rfl, rfl, ?_, ?_, ?_⟩
    · show ((copyBackward v.items p v.size).set p x).take (v.size + 1)
        = (liveElems v).take p ++ x :: (liveElems v).drop p
      rw [take_insert_shift _ _ _ _ hp hsw]
      rfl
    · show v.size + 1 ≤ v.capacity
      omega
    · show ((copyBackward v.items p v.size).set p x).length = v.capacity
      rw [List.length_set, copyBackward_length _ _ _ hp hsw, h2]

omit [Inhabited α] in
lemma Erase_spec_in_range (v : SimpleVector α) (p : Nat) (h : WF v)
    (hp : p < v.size) :
    (v.Erase p).2 = p ∧
    (v.Erase p).1.size = v.size - 1 ∧
    (v.Erase p).1.capacity = v.capacity ∧
    liveElems (v.Erase p).1 = (liveElems v).take p ++ (liveElems v).drop (p + 1) ∧
    WF (v.Erase p).1 := by
  obtain ⟨h1, h2⟩ := h
  unfold Erase
  rw [if_pos hp]
  refine ⟨rfl, rfl, rfl, ?_, ?_, ?_⟩
  · show (v.items.take p ++ (v.items.drop (p + 1)).take (v.size - (p + 1))
        ++ v.items.drop (v.size - 1)).take (v.size - 1)
      = (liveElems v).take p ++ (liveElems v).drop (p + 1)
    exact take_erase_shift v.items p v.size hp (by omega)
  · show v.size - 1 ≤ v.capacity
    omega
  · show (v.items.take p ++ (v.items.drop (p + 1)).take (v.size - (p + 1))
        ++ v.items.drop (v.size - 1)).length = v.capacity
    simp
    omega

lemma Resize_grow_within (v : SimpleVector α) (n : Nat) (h : WF v)
    (hlt : v.size < n) (hle : n ≤ v.capacity) :
    (v.Resize n).size = n ∧
    (v.Resize n).capacity = n ∧
    liveElems (v.Resize n) = liveElems v ++ List.replicate (n - v.size) default ∧
    WF (v.Resize n) := by
  obtain ⟨h1, h2⟩ := h
  unfold Resize
  rw [if_pos hlt, if_pos hle]
  refine ⟨rfl, rfl, ?_, le_refl n, ?_⟩
  · show (v.items.take v.size ++ List.replicate (n - v.size) default).take n
      = liveElems v ++ List.replicate (n - v.size) default
    rw [List.take_of_length_le (by simp; omega)]
    rfl
  · show (v.items.take v.size ++ List.replicate (n - v.size) default).length = n
    simp
    omega

lemma Reserve_spec_lemma (v : SimpleVector α) (c : Nat) (h : WF v) :
    v.capacity ≤ (v.Reserve c).capacity ∧
    (v.Reserve c).size = v.size ∧
    liveElems (v.Reserve c) = liveElems v ∧
    (v.capacity < c → (v.Reserve c).capacity = c) ∧
    (c ≤ v.capacity → v.Reserve c = v) ∧
    WF (v.Reserve c) := by
  obtain ⟨h1, h2⟩ := h
  unfold Reserve
  by_cases hc : c > v.capacity
  · rw [if_pos hc]
    refine ⟨?_, rfl, liveElems_ReCapacity ⟨h1, h2⟩ (by omega), fun _ => rfl,
      fun hle => absurd hc (by omega), WF_ReCapacity ⟨h1, h2⟩ (by omega)⟩
    show v.capacity ≤ c
    omega
  · rw [if_neg hc]
    exact ⟨le_refl _, rfl, rfl, fun hlt => absurd hlt hc, fun _ => rfl, h1, h2⟩

lemma copyFrom_spec_lemma (o : SimpleVector α) (h : WF o) :
    (copyFrom o).size = o.size ∧
    (copyFrom o).capacity = o.size ∧
    liveElems (copyFrom o) = liveElems o ∧
    WF (copyFrom o) := by
  obtain ⟨h1, h2⟩ := h
  have hlive : (liveElems o).length = o.size := by
    unfold liveElems
    simp
    omega
  unfold copyFrom mkSized
  refine ⟨rfl, rfl, ?_, le_refl _, ?_⟩
  · show (liveElems o ++ (List.replicate o.size (default : α)).drop o.size).take o.size
      = liveElems o
    rw [List.drop_replicate, Nat.sub_self]
    simp only [List.replicate_zero, List.append_nil]
    rw [List.take_of_length_le (le_of_eq hlive)]
  · show (liveElems o ++ (List.replicate o.size (default : α)).drop o.size).length
      = o.size
    simp
    omega

lemma pushMany_spec (xs : List α) :
    ∀ (v : SimpleVector α), WF v → v.capacity = capAfter v.size →
    (v.pushMany xs).size = v.size + xs.length ∧
    liveElems (v.pushMany xs) = liveElems v ++ xs ∧
    (v.pushMany xs).capacity = capAfter (v.size + xs.length) ∧
    WF (v.pushMany xs) := by
  induction xs with
  | nil =>
    intro v hwf hcap
    exact ⟨by simp [pushMany], by simp [pushMany],
      by simpa [pushMany] using hcap, by simpa [pushMany] using hwf⟩
  | cons x xs ih =>
    intro v hwf hcap
    obtain ⟨hs, hc, hl, hw⟩ := PushBack_spec v x hwf
    have hcap' : (v.PushBack x).capacity = capAfter (v.PushBack x).size := by
      rw [hs, hc]
      show _ = capAfter (v.size + 1)
      unfold capAfter
      rw [hcap]
    have hstep : v.pushMany (x :: xs) = (v.PushBack x).pushMany xs := by
      simp [pushMany]
    obtain ⟨ih1, ih2, ih3, ih4⟩ := ih (v.PushBack x) hw hcap'
    refine ⟨?_, ?_, ?_, ?_⟩
    · rw [hstep, ih1, hs, List.length_cons]
      omega
    · rw [hstep, ih2, hl, List.append_assoc, List.singleton_append]
    · rw [hstep, ih3, hs, List.length_cons]
      congr 1
      omega
    · rw [hstep]
      exact ih4

omit [Inhabited α] in
lemma lexLt_iff_Lex [LinearOrder α] (xs ys : List α) :
    lexLt xs ys = true ↔ List.Lex (fun a b => a < b) xs ys := by
  induction xs generalizing ys with
  | nil =>
    cases ys with
    | nil =>
      simp only [lexLt, Bool.false_eq_true, false_iff]
      exact fun h => nomatch h
    | cons y ys =>
      simp only [lexLt, true_iff]
      exact List.Lex.nil
  | cons x xs ih =>
    cases ys with
    | nil =>
      simp only [lexLt, Bool.false_eq_true, false_iff]
      exact fun h => nomatch h
    | cons y ys =>
      simp only [lexLt]
      by_cases h1 : x < y
      · simp only [if_pos h1, true_iff]
        exact List.Lex.rel h1
      · by_cases h2 : y < x
        · simp only [if_neg h1, if_pos h2, Bool.false_eq_true, false_iff]
          intro h
          cases h with
          | rel hr => exact h1 hr
          | cons ht => exact lt_irrefl x h2
        · have hxy : x = y := le_antisymm (not_lt.mp h2) (not_lt.mp h1)
          subst hxy
          simp only [if_neg h1, if_neg h2]
          rw [ih ys]
          constructor
          · exact List.Lex.cons
          · intro h
            cases h with
            | rel hr => exact absurd hr h1
            | cons ht => exact ht

lemma At_ok_of_lt (v : SimpleVector α) (i : Nat) (h : WF v) (hi : i < v.size) :
    v.At i = Except.ok (v.get i) ∧ v.get i = (liveElems v).getD i default := by
  obtain ⟨h1, h2⟩ := h
  constructor
  · unfold At
    rw [if_neg (by omega)]
  · unfold get liveElems
    have hlen : i < v.items.length := by omega
    have htlen : i < (v.items.take v.size).length := by simp; omega
    rw [List.getD_eq_getElem _ _ hlen, List.getD_eq_getElem _ _ htlen]
    exact (List.getElem_take _).symm

lemma growCap_eq_max (c : Nat) : growCap c = max 1 (c * 2) := by
  unfold growCap
  split <;> omega

/-! ### Claim theorems -/

/-- Claim C1, counterexample: a container with size 1 and capacity 4
resized to 2 (so `size < newSize ≤ capacity`) does NOT keep its capacity:
`Resize` reallocates to exactly `newSize` slots and sets `capacity_ =
new_size` (line 146 of the source), shrinking the capacity from 4 to 2. -/
theorem resize_keeps_capacity_counterexample :
    ¬ ((((fromList ([5] : List Int)).Reserve 4).Resize 2).capacity
        = ((fromList ([5] : List Int)).Reserve 4).capacity) := by
  decide

/-- Claim C1 (amended): for `size < newSize ≤ capacity`, `Resize(newSize)`
keeps the existing elements `[0, size)` unchanged, fills `[size, newSize)`
with the default value of `T`, sets the size to `newSize`, and sets the
capacity to exactly `newSize` (the buffer IS reallocated, so the capacity
becomes `newSize` rather than staying unchanged). -/
theorem resize_within_capacity_amended (v : SimpleVector α) (n : Nat)
    (h : WF v) (hlt : v.size < n) (hle : n ≤ v.capacity) :
    (v.Resize n).size = n ∧
    (v.Resize n).capacity = n ∧
    liveElems (v.Resize n) = liveElems v ++ List.replicate (n - v.size) default ∧
    WF (v.Resize n) :=
  Resize_grow_within v n h hlt hle

/-- Witness for the amended C1 at a concrete input: size 1, capacity 4,
resized to 2. -/
theorem resize_within_capacity_amended_witness :
    (WF ((fromList ([5] : List Int)).Reserve 4) ∧
      ((fromList ([5] : List Int)).Reserve 4).size < 2 ∧
      2 ≤ ((fromList ([5] : List Int)).Reserve 4).capacity) ∧
    ((((fromList ([5] : List Int)).Reserve 4).Resize 2).size = 2 ∧
      (((fromList ([5] : List Int)).Reserve 4).Resize 2).capacity = 2 ∧
      liveElems (((fromList ([5] : List Int)).Reserve 4).Resize 2)
        = liveElems ((fromList ([5] : List Int)).Reserve 4)
          ++ List.replicate (2 - ((fromList ([5] : List Int)).Reserve 4).size) default ∧
      WF (((fromList ([5] : List Int)).Reserve 4).Resize 2)) :=
  ⟨⟨by decide, by decide, by decide⟩,
    resize_within_capacity_amended _ 2 (by decide) (by decide) (by decide)⟩

/-- Claim C2, evaluated at the failing input (source container `[1]`):
move construction does empty the source (`std::exchange` in the source),
but the defaulted move assignment `operator=(SimpleVector&&) = default`
move-assigns the members, and moving a `size_t` merely copies it — the
source keeps `size == 1` and `capacity == 1` instead of being left in the
empty state the spec requires. -/
theorem move_assign_source_not_emptied :
    (moveCtor (fromList ([1] : List Int))).1 = fromList [1] ∧
    (moveCtor (fromList ([1] : List Int))).2.size = 0 ∧
    (moveCtor (fromList ([1] : List Int))).2.capacity = 0 ∧
    (moveAssign emptyVec (fromList ([1] : List Int))).1 = fromList [1] ∧
    (moveAssign emptyVec (fromList ([1] : List Int))).2.size = 1 ∧
    (moveAssign emptyVec (fromList ([1] : List Int))).2.capacity = 1 := by
  decide

omit [Inhabited α] in
/-- Claim C3: `PopBack` on an empty container and `Erase` at an
out-of-range position (offset `p ≥ size`) are silent no-ops: the whole
container state is unchanged, and `Erase` returns the computed offset `p`. -/
theorem popback_empty_and_erase_out_of_range (v w : SimpleVector α) (p : Nat)
    (hw : w.size = 0) (hp : v.size ≤ p) :
    w.PopBack = w ∧ v.Erase p = (v, p) := by
  constructor
  · unfold PopBack
    rw [if_pos hw]
  · unfold Erase
    rw [if_neg (by omega)]

/-- Witness for C3: popping an empty container and erasing offset 3 of a
one-element container. -/
theorem popback_empty_and_erase_out_of_range_witness :
    ((emptyVec : SimpleVector Int).size = 0 ∧
      (fromList ([7] : List Int)).size ≤ 3) ∧
    ((emptyVec : SimpleVector Int).PopBack = emptyVec ∧
      (fromList ([7] : List Int)).Erase 3 = (fromList [7], 3)) :=
  ⟨⟨by decide, by decide⟩,
    popback_empty_and_erase_out_of_range (fromList [7]) emptyVec 3
      (by decide) (by decide)⟩

/-- Claim C4: pushing `k = xs.length` values onto an initially empty
container appends them in order (each written at offset `size`, size
incremented), the final size is `k`, the capacity follows the doubling
rule `0 → 1 → 2 → 4 → …` (`capAfter`), capacity never falls below size,
and one more push grows the capacity to `max 1 (capacity * 2)` exactly
when the container is full. -/
theorem pushback_repeated_growth (xs : List α) (x : α) :
    ((emptyVec : SimpleVector α).pushMany xs).size = xs.length ∧
    liveElems ((emptyVec : SimpleVector α).pushMany xs) = xs ∧
    ((emptyVec : SimpleVector α).pushMany xs).capacity = capAfter xs.length ∧
    xs.length ≤ ((emptyVec : SimpleVector α).pushMany xs).capacity ∧
    liveElems (((emptyVec : SimpleVector α).pushMany xs).PushBack x) = xs ++ [x] ∧
    (((emptyVec : SimpleVector α).pushMany xs).PushBack x).size = xs.length + 1 ∧
    (((emptyVec : SimpleVector α).pushMany xs).PushBack x).capacity
      = (if ((emptyVec : SimpleVector α).pushMany xs).size
            = ((emptyVec : SimpleVector α).pushMany xs).capacity
         then max 1 (((emptyVec : SimpleVector α).pushMany xs).capacity * 2)
         else ((emptyVec : SimpleVector α).pushMany xs).capacity) := by
  have hE : WF (emptyVec : SimpleVector α) := ⟨le_refl 0, rfl⟩
  obtain ⟨a1, a2, a3, a4⟩ := pushMany_spec xs emptyVec hE rfl
  obtain ⟨b1, b2, b3, b4⟩ := PushBack_spec ((emptyVec : SimpleVector α).pushMany xs) x a4
  have e0 : (emptyVec : SimpleVector α).size = 0 := rfl
  have eL : liveElems (emptyVec : SimpleVector α) = [] := rfl
  refine ⟨by rw [a1, e0, Nat.zero_add], by rw [a2, eL, List.nil_append], ?_,
    ?_, ?_, ?_, ?_⟩
  · rw [a3, e0, Nat.zero_add]
  · have := a4.1
    rw [a1, e0, Nat.zero_add] at this
    omega
  · rw [b3, a2, eL, List.nil_append]
  · rw [b1, a1, e0, Nat.zero_add]
  · rw [b2, growCap_eq_max]

/-- Claim C5: checked access `At(i)` (same model for the mutable and the
read-only overload; it performs no writes, so the container is unchanged)
fails with the out-of-range error exactly when `i ≥ size`, and otherwise
returns the same value as unchecked access `operator[]`, which is the
`i`-th live element. -/
theorem at_checked_access (v : SimpleVector α) (i : Nat) (h : WF v) :
    (v.At i = Except.error "index >= size" ↔ v.size ≤ i) ∧
    (i < v.size →
      v.At i = Except.ok (v.get i) ∧
      v.get i = (liveElems v).getD i default) := by
  constructor
  · constructor
    · intro he
      by_contra hlt
      unfold At at he
      rw [if_neg (by omega)] at he
      exact Except.noConfusion he
    · intro hge
      unfold At
      rw [if_pos (by omega)]
  · intro hi
    exact At_ok_of_lt v i h hi

/-- Witness for C5 at `[4, 5]`, index 1. -/
theorem at_checked_access_witness :
    WF (fromList ([4, 5] : List Int)) ∧
    (((fromList ([4, 5] : List Int)).At 1 = Except.error "index >= size"
        ↔ (fromList ([4, 5] : List Int)).size ≤ 1) ∧
      (1 < (fromList ([4, 5] : List Int)).size →
        (fromList ([4, 5] : List Int)).At 1
          = Except.ok ((fromList ([4, 5] : List Int)).get 1) ∧
        (fromList ([4, 5] : List Int)).get 1
          = (liveElems (fromList ([4, 5] : List Int))).getD 1 default)) :=
  ⟨by decide, at_checked_access (fromList [4, 5]) 1 (by decide)⟩

/-- Claim C6: `Insert` at an offset `p ≤ size` returns the offset `p` of
the inserted element (the offset is taken relative to the original begin,
before any reallocation), grows the capacity by the doubling policy
exactly when the container was full, shifts the elements `[p, size)` one
slot toward the end, writes the value at offset `p`, and increments the
size. -/
theorem insert_spec (v : SimpleVector α) (p : Nat) (x : α) (h : WF v)
    (hp : p ≤ v.size) :
    (v.Insert p x).2 = p ∧
    (v.Insert p x).1.size = v.size + 1 ∧
    (v.Insert p x).1.capacity
      = (if v.size = v.capacity then max 1 (v.capacity * 2) else v.capacity) ∧
    liveElems (v.Insert p x).1
      = (liveElems v).take p ++ x :: (liveElems v).drop p ∧
    WF (v.Insert p x).1 := by
  obtain ⟨a1, a2, a3, a4, a5⟩ := Insert_spec v p x h hp
  rw [growCap_eq_max] at a3
  exact ⟨a1, a2, a3, a4, a5⟩

/-- Witness for C6: inserting 9 at offset 1 of the full container `[1, 2]`
(capacity grows 2 → 4, result `[1, 9, 2]`). -/
theorem insert_spec_witness :
    (WF (fromList ([1, 2] : List Int)) ∧ 1 ≤ (fromList ([1, 2] : List Int)).size) ∧
    (((fromList ([1, 2] : List Int)).Insert 1 9).2 = 1 ∧
      ((fromList ([1, 2] : List Int)).Insert 1 9).1.size
        = (fromList ([1, 2] : List Int)).size + 1 ∧
      ((fromList ([1, 2] : List Int)).Insert 1 9).1.capacity
        = (if (fromList ([1, 2] : List Int)).size = (fromList ([1, 2] : List Int)).capacity
           then max 1 ((fromList ([1, 2] : List Int)).capacity * 2)
           else (fromList ([1, 2] : List Int)).capacity) ∧
      liveElems ((fromList ([1, 2] : List Int)).Insert 1 9).1
        = (liveElems (fromList ([1, 2] : List Int))).take 1
          ++ 9 :: (liveElems (fromList ([1, 2] : List Int))).drop 1 ∧
      WF ((fromList ([1, 2] : List Int)).Insert 1 9).1) :=
  ⟨⟨by decide, by decide⟩, insert_spec (fromList [1, 2]) 1 9 (by decide) (by decide)⟩

omit [Inhabited α] in
/-- Claim C7: `Erase` at an in-range offset `p < size` shifts each element
after `p` one slot toward the beginning, decrements the size, leaves the
capacity (and the elements before `p`) unchanged, and returns the offset
`p` of the slot following the removed element — which equals the new
`end()` offset when the last element was removed. -/
theorem erase_spec (v : SimpleVector α) (p : Nat) (h : WF v)
    (hp : p < v.size) :
    (v.Erase p).2 = p ∧
    (v.Erase p).1.size = v.size - 1 ∧
    (v.Erase p).1.capacity = v.capacity ∧
    liveElems (v.Erase p).1
      = (liveElems v).take p ++ (liveElems v).drop (p + 1) ∧
    (p = v.size - 1 → (v.Erase p).2 = (v.Erase p).1.size) ∧
    WF (v.Erase p).1 := by
  obtain ⟨a1, a2, a3, a4, a5⟩ := Erase_spec_in_range v p h hp
  exact ⟨a1, a2, a3, a4, fun hlast => by rw [a1, a2, hlast], a5⟩

/-- Witness for C7: erasing offset 1 of `[1, 2, 3]` (result `[1, 3]`). -/
theorem erase_spec_witness :
    (WF (fromList ([1, 2, 3] : List Int)) ∧ 1 < (fromList ([1, 2, 3] : List Int)).size) ∧
    (((fromList ([1, 2, 3] : List Int)).Erase 1).2 = 1 ∧
      ((fromList ([1, 2, 3] : List Int)).Erase 1).1.size
        = (fromList ([1, 2, 3] : List Int)).size - 1 ∧
      ((fromList ([1, 2, 3] : List Int)).Erase 1).1.capacity
        = (fromList ([1, 2, 3] : List Int)).capacity ∧
      liveElems ((fromList ([1, 2, 3] : List Int)).Erase 1).1
        = (liveElems (fromList ([1, 2, 3] : List Int))).take 1
          ++ (liveElems (fromList ([1, 2, 3] : List Int))).drop 2 ∧
      (1 = (fromList ([1, 2, 3] : List Int)).size - 1 →
        ((fromList ([1, 2, 3] : List Int)).Erase 1).2
          = ((fromList ([1, 2, 3] : List Int)).Erase 1).1.size) ∧
      WF ((fromList ([1, 2, 3] : List Int)).Erase 1).1) :=
  ⟨⟨by decide, by decide⟩, erase_spec (fromList [1, 2, 3]) 1 (by decide) (by decide)⟩

/-- Claim C8: `Reserve(newCapacity)` never decreases the capacity and never
changes the size or the live elements; when `newCapacity > capacity` the
capacity becomes exactly `newCapacity`, otherwise the container is entirely
unchanged. -/
theorem reserve_spec (v : SimpleVector α) (c : Nat) (h : WF v) :
    v.capacity ≤ (v.Reserve c).capacity ∧
    (v.Reserve c).size = v.size ∧
    liveElems (v.Reserve c) = liveElems v ∧
    (v.capacity < c → (v.Reserve c).capacity = c) ∧
    (c ≤ v.capacity → v.Reserve c = v) ∧
    WF (v.Reserve c) :=
  Reserve_spec_lemma v c h

/-- Witness for C8: reserving 10 slots on `[1]`. -/
theorem reserve_spec_witness :
    WF (fromList ([1] : List Int)) ∧
    ((fromList ([1] : List Int)).capacity
        ≤ ((fromList ([1] : List Int)).Reserve 10).capacity ∧
      ((fromList ([1] : List Int)).Reserve 10).size
        = (fromList ([1] : List Int)).size ∧
      liveElems ((fromList ([1] : List Int)).Reserve 10)
        = liveElems (fromList ([1] : List Int)) ∧
      ((fromList ([1] : List Int)).capacity < 10 →
        ((fromList ([1] : List Int)).Reserve 10).capacity = 10) ∧
      (10 ≤ (fromList ([1] : List Int)).capacity →
        (fromList ([1] : List Int)).Reserve 10 = fromList [1]) ∧
      WF ((fromList ([1] : List Int)).Reserve 10)) :=
  ⟨by decide, reserve_spec (fromList [1]) 10 (by decide)⟩

omit [Inhabited α] in
/-- Claim C9: `==` holds iff the two containers have the same size and
pairwise-equal live elements in index order; `!=` is its negation; `<` is
lexicographic comparison of the live element sequences under the elements'
natural ordering (`List.Lex (· < ·)`); `<=`, `>`, `>=` are derived from
`<` exactly as in the source; equality is reflexive and symmetric; and two
containers built from the same literal sequence are equal. -/
theorem comparison_operators [DecidableEq α] [LinearOrder α]
    (a b : SimpleVector α) (xs : List α) :
    (eqOp a b = true ↔ a.size = b.size ∧ liveElems a = liveElems b) ∧
    (neOp a b = !(eqOp a b)) ∧
    (ltOp a b = true
      ↔ List.Lex (fun x y => x < y) (liveElems a) (liveElems b)) ∧
    (leOp a b = !(ltOp b a)) ∧
    (gtOp a b = ltOp b a) ∧
    (geOp a b = !(ltOp a b)) ∧
    eqOp a a = true ∧
    eqOp a b = eqOp b a ∧
    eqOp (fromList xs) (fromList xs) = true := by
  refine ⟨?_, rfl, lexLt_iff_Lex _ _, rfl, rfl, rfl, ?_, ?_, ?_⟩
  · unfold eqOp
    by_cases hs : a.size = b.size
    · rw [if_pos hs]
      simp [hs]
    · rw [if_neg hs]
      simp [hs]
  · unfold eqOp
    rw [if_pos rfl]
    simp
  · unfold eqOp
    by_cases hs : a.size = b.size
    · rw [if_pos hs, if_pos hs.symm]
      simp [decide_eq_decide]
      exact ⟨Eq.symm, Eq.symm⟩
    · rw [if_neg hs, if_neg (fun he => hs he.symm)]
  · unfold eqOp
    rw [if_pos rfl]
    simp

/-- Claim C10: copy construction (and copy assignment to a distinct
object, which the source implements by copy-construct-and-swap) yields a
container with the source's size and live elements but capacity equal to
the source's SIZE — not its capacity; copy assignment of a container to
itself (the `this != &rhs` guard) leaves it unchanged. -/
theorem copy_semantics (o lhs w : SimpleVector α) (h : WF o) :
    (copyFrom o).size = o.size ∧
    (copyFrom o).capacity = o.size ∧
    liveElems (copyFrom o) = liveElems o ∧
    copyAssign lhs o false = copyFrom o ∧
    copyAssign w w true = w ∧
    WF (copyFrom o) := by
  obtain ⟨a1, a2, a3, a4⟩ := copyFrom_spec_lemma o h
  exact ⟨a1, a2, a3, rfl, rfl, a4⟩

/-- Witness for C10: copying `[1, 2]` after reserving capacity 5 — the
copy's capacity is 2 (the source's size), not 5. -/
theorem copy_semantics_witness :
    WF ((fromList ([1, 2] : List Int)).Reserve 5) ∧
    ((copyFrom ((fromList ([1, 2] : List Int)).Reserve 5)).size
        = ((fromList ([1, 2] : List Int)).Reserve 5).size ∧
      (copyFrom ((fromList ([1, 2] : List Int)).Reserve 5)).capacity
        = ((fromList ([1, 2] : List Int)).Reserve 5).size ∧
      liveElems (copyFrom ((fromList ([1, 2] : List Int)).Reserve 5))
        = liveElems ((fromList ([1, 2] : List Int)).Reserve 5) ∧
      copyAssign emptyVec ((fromList ([1, 2] : List Int)).Reserve 5) false
        = copyFrom ((fromList ([1, 2] : List Int)).Reserve 5) ∧
      copyAssign (fromList ([3] : List Int)) (fromList ([3] : List Int)) true
        = fromList [3] ∧
      WF (copyFrom ((fromList ([1, 2] : List Int)).Reserve 5))) :=
  ⟨by decide,
    copy_semantics ((fromList ([1, 2] : List Int)).Reserve 5) emptyVec
      (fromList [3]) (by decide)⟩

end SimpleVector

end SimpleVectorSpec
